import Mathlib

/-!
Verification of the Chakravala Pell-equation solver (`src/main.rs`).

The Rust program solves x² − N·y² = 1 for a positive non-square `N : u32`
with the Chakravala method.  We embed it shallowly: `BigInt` becomes `Int`,
Rust's truncating `/` and `%` become `Int.tdiv` / `Int.tmod`, the `while`
loop becomes a fuel-indexed recursion whose exhaustion is a distinguished
`running` outcome (the source loop has no cap, so every theorem about a
returned value is fuel-independent), and the `expect` abort in
`find_optimal_m` becomes the `none` / `aborted` outcome.
-/

namespace Chakravala

/-- Fuel-based helper for the floor square root: counts `acc` upward while
`(acc+1)² ≤ n`. -/
def sqrtAux (n : Nat) : Nat → Nat → Nat
  | 0, acc => acc
  | fuel + 1, acc => if (acc + 1) * (acc + 1) ≤ n then sqrtAux n fuel (acc + 1) else acc

/-- Floor integer square root on `Nat` (kernel-computable model of the
BigInt facade's `sqrt` operation). -/
def natSqrt (n : Nat) : Nat := sqrtAux n n 0

/-- Floor integer square root of an integer (the `BigInt::sqrt` method of
the source; only ever applied to nonnegative values there). -/
def intSqrt (x : Int) : Int := (natSqrt x.toNat : Int)

/-- Maximal value of Rust's `u64` (the conversion `to_u64` succeeds exactly
up to this bound, and `saturating_add` clamps at it). -/
def u64Max : Nat := 18446744073709551615

/-- Inner candidate loop of `find_optimal_m` (src/main.rs lines 84-103):
processes the candidate list of one offset, updating the `(best_m, min_diff)`
state; a valid but not-better candidate at `offset > 5` breaks out of the
candidate list. -/
def offsetPass (n a b absk : Int) (offset : Nat) : List Int → Option (Int × Int) → Option (Int × Int)
  | [], st => st
  | c :: rest, none =>
    if c ≤ 0 then offsetPass n a b absk offset rest none
    else if (a + b * c).tmod absk = 0 then
      offsetPass n a b absk offset rest (some (c, |c * c - n|))
    else offsetPass n a b absk offset rest none
  | c :: rest, some (bm, md) =>
    if c ≤ 0 then offsetPass n a b absk offset rest (some (bm, md))
    else if (a + b * c).tmod absk = 0 then
      if |c * c - n| < md then offsetPass n a b absk offset rest (some (c, |c * c - n|))
      else if 5 < offset then some (bm, md)
      else offsetPass n a b absk offset rest (some (bm, md))
    else offsetPass n a b absk offset rest (some (bm, md))

/-- Outer offset loop of `find_optimal_m` (src/main.rs lines 81-110):
iterates offsets `0, 1, 2, …` up to the remaining budget `rem`, building the
candidate list `{t}` resp. `{t+offset, t−offset}` for each offset and
breaking once a candidate exists and `offset` exceeds `capB`. -/
def searchLoop (n a b absk target : Int) (capB : Nat) : Nat → Nat → Option (Int × Int) → Option (Int × Int)
  | 0, _, st => st
  | rem + 1, offset, st =>
    let cands : List Int :=
      if offset = 0 then [target] else [target + (offset : Int), target - (offset : Int)]
    let st2 := offsetPass n a b absk offset cands st
    if st2.isSome ∧ capB < offset then st2
    else searchLoop n a b absk target capB rem (offset + 1) st2

/-- The multiplier oracle `find_optimal_m` (src/main.rs lines 70-113).
Returns `none` where the Rust code would reach the `expect` abort. -/
def find_optimal_m (n a b k : Int) : Option Int :=
  let absk := |k|
  let target := intSqrt n
  let limit : Nat :=
    if absk ≤ (u64Max : Int) then min (absk.toNat + 2) u64Max else 1002
  let capB : Nat := min (if absk ≤ (u64Max : Int) then absk.toNat else 0) 10
  Option.map Prod.fst (searchLoop n a b absk target capB limit 0 none)

/-- One composition step (Bhāskara's samāsa, src/main.rs lines 48-62):
`new_k = (m²−N) tdiv k`, `new_a = (a·m+N·b) tdiv |k|`, `new_b = (a+b·m) tdiv |k|`,
with Rust's truncating `BigInt` division. -/
def compose (n a b k m : Int) : Int × Int × Int :=
  let absk := |k|
  let newK := (m * m - n).tdiv k
  let newA := (a * m + n * b).tdiv absk
  let newB := (a + b * m).tdiv absk
  (newA, newB, newK)

/-- One iteration of the driver's `while` body: call the oracle, then
compose.  `none` models the `expect` abort inside `find_optimal_m`. -/
def step (n : Int) : Int × Int × Int → Option (Int × Int × Int)
  | (a, b, k) =>
    match find_optimal_m n a b k with
    | none => none
    | some m => some (compose n a b k m)

/-- Observable outcome of the solver.  `perfectSquare` is the early
`return None` with its diagnostic message; `solution x y` is `Some((x, y))`;
`aborted` is the process abort from the oracle's `expect`; `running` is an
artifact of the fuel embedding (the source loop is unbounded). -/
inductive Result where
  | perfectSquare : Result
  | solution : Int → Int → Result
  | aborted : Result
  | running : Int → Int → Int → Result
deriving DecidableEq

/-- Fuel-indexed embedding of the driver's `while k != 1` loop
(src/main.rs lines 42-64). -/
def loop (n : Int) : Nat → Int × Int × Int → Result
  | 0, (a, b, k) => .running a b k
  | fuel + 1, (a, b, k) =>
    if k = 1 then .solution a b
    else
      match step n (a, b, k) with
      | none => .aborted
      | some t => loop n fuel t

/-- Initial triple construction (src/main.rs lines 19-35): `b = 1`,
`a` the closer of `⌊√N⌋` and `⌊√N⌋+1` to `√N` (the first assignment to `a`
in the source is dead and immediately overwritten), `k = a² − N·b²`. -/
def initTriple (n : Int) : Int × Int × Int :=
  let root := intSqrt n
  let diff1 := |n - root * root|
  let rootPlus := root + 1
  let diff2 := |rootPlus * rootPlus - n|
  let a := if diff2 < diff1 then rootPlus else root
  let b : Int := 1
  (a, b, a * a - n * b * b)

/-- The solver `chakravala` (src/main.rs lines 6-67).  The input type `u32`
is modelled by `Nat`; `fuel` bounds the fuel embedding of the unbounded
source loop. -/
def chakravala (fuel : Nat) (n : Nat) : Result :=
  let nb : Int := (n : Int)
  let s := intSqrt nb
  if s * s = nb then .perfectSquare
  else loop nb fuel (initTriple nb)

/-- The triples produced by the driver, in order: index 0 is the initial
triple, index `i+1` the result of the `i+1`-st composition step (undefined
past loop exit or on oracle abort). -/
def nthTriple (n : Int) : Nat → Option (Int × Int × Int)
  | 0 => some (initTriple n)
  | i + 1 =>
    match nthTriple n i with
    | none => none
    | some (a, b, k) => if k = 1 then none else step n (a, b, k)

/-- The driver's loop invariant: the Pell relation `a² − N·b² = k`,
positivity of `a` and `b`, and coprimality of `a` and `b`. -/
def Inv (n : Int) : Int × Int × Int → Prop
  | (a, b, k) => a * a - n * b * b = k ∧ 0 < a ∧ 0 < b ∧ IsCoprime a b

/-- A recorded `(best_m, min_diff)` pair always holds a positive candidate
that passed the divisibility test. -/
def GoodState (a b absk : Int) (st : Option (Int × Int)) : Prop :=
  ∀ p : Int × Int, st = some p → 0 < p.1 ∧ (a + b * p.1).tmod absk = 0

/-! ### Properties of the floor square root -/

theorem sqrtAux_le (n : Nat) : ∀ fuel acc, acc * acc ≤ n →
    sqrtAux n fuel acc * sqrtAux n fuel acc ≤ n
  | 0, _, h => h
  | fuel + 1, acc, h => by
    unfold sqrtAux
    split
    · exact sqrtAux_le n fuel (acc + 1) (by assumption)
    · exact h

theorem sqrtAux_lt_succ (n : Nat) : ∀ fuel acc, n < (acc + fuel + 1) * (acc + fuel + 1) →
    n < (sqrtAux n fuel acc + 1) * (sqrtAux n fuel acc + 1)
  | 0, acc, h => by simpa [sqrtAux] using h
  | fuel + 1, acc, h => by
    unfold sqrtAux
    split
    · refine sqrtAux_lt_succ n fuel (acc + 1) ?_
      have e : acc + 1 + fuel + 1 = acc + (fuel + 1) + 1 := by omega
      rw [e]
      exact h
    · omega

theorem natSqrt_le (n : Nat) : natSqrt n * natSqrt n ≤ n :=
  sqrtAux_le n n 0 (by omega)

theorem natSqrt_lt_succ (n : Nat) : n < (natSqrt n + 1) * (natSqrt n + 1) :=
  sqrtAux_lt_succ n n 0 (by nlinarith)

theorem natSqrt_square (s : Nat) : natSqrt (s * s) = s := by
  have h1 := natSqrt_le (s * s)
  have h2 := natSqrt_lt_succ (s * s)
  nlinarith

theorem intSqrt_nonneg (x : Int) : 0 ≤ intSqrt x := Int.natCast_nonneg _

theorem intSqrt_le {x : Int} (hx : 0 ≤ x) : intSqrt x * intSqrt x ≤ x := by
  have h := natSqrt_le x.toNat
  have : ((natSqrt x.toNat * natSqrt x.toNat : Nat) : Int) ≤ ((x.toNat : Nat) : Int) :=
    Int.ofNat_le.mpr h
  rwa [Int.natCast_mul, Int.toNat_of_nonneg hx] at this

theorem intSqrt_lt_succ {x : Int} (hx : 0 ≤ x) :
    x < (intSqrt x + 1) * (intSqrt x + 1) := by
  have h := natSqrt_lt_succ x.toNat
  have : ((x.toNat : Nat) : Int) < ((natSqrt x.toNat + 1) * (natSqrt x.toNat + 1) : Nat) :=
    Int.ofNat_lt.mpr h
  rw [Int.toNat_of_nonneg hx] at this
  push_cast at this
  exact this

theorem intSqrt_square {x s : Int} (hs : 0 ≤ s) (h : s * s = x) :
    intSqrt x = s := by
  subst h
  have hnat : (s * s).toNat = s.toNat * s.toNat := by
    have h1 : ((s * s).toNat : Int) = ((s.toNat * s.toNat : Nat) : Int) := by
      rw [Int.toNat_of_nonneg (mul_nonneg hs hs)]
      push_cast
      rw [Int.toNat_of_nonneg hs]
    exact_mod_cast h1
  unfold intSqrt
  rw [hnat, natSqrt_square]
  exact Int.toNat_of_nonneg hs

theorem not_square_of_check {x : Int}
    (h : intSqrt x * intSqrt x ≠ x) : ∀ s : Int, s * s ≠ x := by
  intro s hs
  rcases le_or_lt 0 s with hs0 | hs0
  · exact h (by rw [intSqrt_square hs0 hs]; exact hs)
  · have hneg : (-s) * (-s) = x := by rw [neg_mul_neg]; exact hs
    exact h (by rw [intSqrt_square (by omega) hneg]; exact hneg)

/-! ### Postcondition of the multiplier oracle -/

theorem goodState_none (a b absk : Int) : GoodState a b absk none := by
  intro p hp
  exact absurd hp (by simp)

theorem goodState_record {a b absk c : Int} (hc : ¬c ≤ 0)
    (hdvd : (a + b * c).tmod absk = 0) (d : Int) :
    GoodState a b absk (some (c, d)) := by
  intro p hp
  obtain rfl : (c, d) = p := Option.some.inj hp
  exact ⟨by omega, hdvd⟩

theorem offsetPass_good (n a b absk : Int) (offset : Nat) :
    ∀ (cands : List Int) (st : Option (Int × Int)), GoodState a b absk st →
      GoodState a b absk (offsetPass n a b absk offset cands st)
  | [], st, hst => hst
  | c :: rest, none, hst => by
    unfold offsetPass
    split
    · exact offsetPass_good n a b absk offset rest none hst
    · split
      · exact offsetPass_good n a b absk offset rest _
          (goodState_record (by assumption) (by assumption) _)
      · exact offsetPass_good n a b absk offset rest none hst
  | c :: rest, some (bm, md), hst => by
    unfold offsetPass
    split
    · exact offsetPass_good n a b absk offset rest _ hst
    · split
      · split
        · exact offsetPass_good n a b absk offset rest _
            (goodState_record (by assumption) (by assumption) _)
        · split
          · exact hst
          · exact offsetPass_good n a b absk offset rest _ hst
      · exact offsetPass_good n a b absk offset rest _ hst

theorem searchLoop_good (n a b absk target : Int) (capB : Nat) :
    ∀ (rem offset : Nat) (st : Option (Int × Int)), GoodState a b absk st →
      GoodState a b absk (searchLoop n a b absk target capB rem offset st)
  | 0, _, _, hst => hst
  | rem + 1, offset, st, hst => by
    unfold searchLoop
    dsimp only
    split
    all_goals split
    all_goals first
      | exact offsetPass_good n a b absk offset _ st hst
      | exact searchLoop_good n a b absk target capB rem (offset + 1) _
          (offsetPass_good n a b absk offset _ st hst)

/-- The oracle's guarantee: when `find_optimal_m` returns a value `m`, it is
positive and satisfies the divisibility constraint `(a + b·m) mod |k| = 0`. -/
theorem find_optimal_m_good {n a b k m : Int}
    (h : find_optimal_m n a b k = some m) :
    0 < m ∧ (a + b * m).tmod |k| = 0 := by
  unfold find_optimal_m at h
  rcases Option.map_eq_some'.mp h with ⟨p, hp, rfl⟩
  exact searchLoop_good n a b |k| (intSqrt n) _ _ 0 none
    (goodState_none a b |k|) p hp

/-- Divisibility from a vanishing truncated remainder. -/
theorem dvd_of_tmod_eq_zero {x y : Int} (h : x.tmod y = 0) : y ∣ x := by
  refine ⟨x.tdiv y, ?_⟩
  have := Int.tdiv_add_tmod x y
  omega

/-! ### Preservation of the driver's invariant -/

/-- For a non-square `n`, a triple with `b > 0` and `a, b` coprime has
`k = a² − n·b² ≠ 0`. -/
theorem k_ne_zero {n a b : Int} (hns : ∀ s : Int, s * s ≠ n)
    (hb : 0 < b) (hcop : IsCoprime a b) : a * a - n * b * b ≠ 0 := by
  intro h0
  have hsq : a * a = n * (b * b) := by linarith
  have hdvd : b * b ∣ a * a := ⟨n, by linarith⟩
  have hcop2 : IsCoprime (a * a) (b * b) :=
    (hcop.mul_right hcop).mul_left (hcop.mul_right hcop)
  have hu : IsUnit (b * b) := hcop2.isUnit_of_dvd' hdvd dvd_rfl
  rcases Int.isUnit_iff.mp hu with h1 | h1
  · have hb1 : b = 1 := by nlinarith
    subst hb1
    exact hns a (by linarith)
  · nlinarith

/-- Coprimality of `b` with `k = a² − n·b²`. -/
theorem isCoprime_b_k {n a b : Int} (hcop : IsCoprime a b) :
    IsCoprime b (a * a - n * b * b) := by
  obtain ⟨u, v, huv⟩ := (hcop.symm).mul_right (hcop.symm)
  exact ⟨u + v * (n * b), v, by linear_combination huv⟩

/-- Core samāsa divisibilities: if `k = a² − n·b² ≠ 0` divides `a + b·m` and
`a, b` are coprime, then `k` also divides `a·m + n·b` and `m² − n`. -/
theorem samasa_dvd {n a b k m : Int} (hk : a * a - n * b * b = k)
    (hcop : IsCoprime a b) (hdvd : k ∣ a + b * m) :
    k ∣ a * m + n * b ∧ k ∣ m * m - n := by
  have hbk : IsCoprime k b := (hk ▸ isCoprime_b_k hcop).symm
  constructor
  · have h1 : k ∣ b * (a * m + n * b) := by
      have : b * (a * m + n * b) = a * (a + b * m) - k := by linear_combination -hk
      rw [this]
      exact dvd_sub (hdvd.mul_left a) dvd_rfl
    exact hbk.dvd_of_dvd_mul_left h1
  · have h2 : k ∣ b * (b * (m * m - n)) := by
      have : b * (b * (m * m - n)) = (a + b * m) * (b * m - a) + k := by
        linear_combination hk
      rw [this]
      exact dvd_add (hdvd.mul_right (b * m - a)) dvd_rfl
    exact hbk.dvd_of_dvd_mul_left (hbk.dvd_of_dvd_mul_left h2)

/-- The composition step preserves the full invariant. -/
theorem compose_inv {n a b k m : Int} (hn : 0 ≤ n)
    (hns : ∀ s : Int, s * s ≠ n)
    (hk : a * a - n * b * b = k) (ha : 0 < a) (hb : 0 < b)
    (hcop : IsCoprime a b) (hm : 0 < m)
    (hdvd : k ∣ a + b * m) : Inv n (compose n a b k m) := by
  have hk0 : k ≠ 0 := hk ▸ k_ne_zero hns hb hcop
  have habs : (0 : Int) < |k| := abs_pos.mpr hk0
  obtain ⟨hdvd_a, hdvd_k⟩ := samasa_dvd hk hcop hdvd
  have hdvdB : |k| ∣ a + b * m := (abs_dvd k _).mpr hdvd
  have hdvdA : |k| ∣ a * m + n * b := (abs_dvd k _).mpr hdvd_a
  set A := (a * m + n * b).tdiv |k| with hA_def
  set B := (a + b * m).tdiv |k| with hB_def
  set K := (m * m - n).tdiv k with hK_def
  have hA : A * |k| = a * m + n * b := Int.tdiv_mul_cancel hdvdA
  have hB : B * |k| = a + b * m := Int.tdiv_mul_cancel hdvdB
  have hK : K * k = m * m - n := Int.tdiv_mul_cancel hdvd_k
  have habs2 : |k| * |k| = k * k := abs_mul_abs_self k
  have hAposmul : 0 < A * |k| := by
    rw [hA]
    have h1 : 0 < a * m := mul_pos ha hm
    have h2 : 0 ≤ n * b := mul_nonneg hn hb.le
    linarith
  have hBposmul : 0 < B * |k| := by
    rw [hB]
    have h1 : 0 < b * m := mul_pos hb hm
    linarith
  have hApos : 0 < A := by
    rcases mul_pos_iff.mp hAposmul with ⟨h1, _⟩ | ⟨_, h2⟩
    · exact h1
    · linarith
  have hBpos : 0 < B := by
    rcases mul_pos_iff.mp hBposmul with ⟨h1, _⟩ | ⟨_, h2⟩
    · exact h1
    · linarith
  have hident : A * A - n * B * B = K := by
    have hmain : (A * A - n * B * B) * (k * k) = K * (k * k) := by
      calc (A * A - n * B * B) * (k * k)
          = (A * |k|) * (A * |k|) - n * ((B * |k|) * (B * |k|)) := by
            rw [← habs2]; ring
        _ = (a * m + n * b) * (a * m + n * b) - n * ((a + b * m) * (a + b * m)) := by
            rw [hA, hB]
        _ = (a * a - n * b * b) * (m * m - n) := by ring
        _ = k * (K * k) := by rw [hk, hK]
        _ = K * (k * k) := by ring
    exact mul_right_cancel₀ (mul_ne_zero hk0 hk0) hmain
  have hdet : (a * B - b * A) * |k| = k := by
    have : (a * B - b * A) * |k| = a * (B * |k|) - b * (A * |k|) := by ring
    rw [this, hA, hB]
    linear_combination hk
  have hcop' : IsCoprime A B := by
    rcases abs_choice k with hak | hak
    · rw [hak] at hdet
      have he : a * B - b * A = 1 :=
        mul_right_cancel₀ hk0 (by linear_combination hdet)
      exact ⟨-b, a, by linear_combination he⟩
    · rw [hak] at hdet
      have he : a * B - b * A = -1 :=
        mul_right_cancel₀ hk0 (by linear_combination -hdet)
      exact ⟨b, -a, by linear_combination -he⟩
  show Inv n (A, B, K)
  exact ⟨hident, hApos, hBpos, hcop'⟩

/-- One driver step preserves the invariant. -/
theorem step_inv {n : Int} (hn : 0 ≤ n) (hns : ∀ s : Int, s * s ≠ n)
    {t t' : Int × Int × Int} (hinv : Inv n t) (h : step n t = some t') :
    Inv n t' := by
  obtain ⟨a, b, k⟩ := t
  obtain ⟨hk, ha, hb, hcop⟩ := hinv
  rcases hfm : find_optimal_m n a b k with _ | m
  · simp only [step, hfm] at h
    exact Option.noConfusion h
  · simp only [step, hfm] at h
    obtain ⟨hm, hdvd⟩ := find_optimal_m_good hfm
    obtain rfl : compose n a b k m = t' := Option.some.inj h
    exact compose_inv hn hns hk ha hb hcop hm
      ((abs_dvd k _).mp (dvd_of_tmod_eq_zero hdvd))

/-- The initial triple satisfies the invariant. -/
theorem initTriple_inv {n : Int} (hpos : 0 < n) :
    Inv n (initTriple n) := by
  unfold initTriple
  dsimp only
  have hs0 : 0 ≤ intSqrt n := intSqrt_nonneg n
  have hs1 : 0 < intSqrt n := by
    rcases lt_or_le 0 (intSqrt n) with h | h
    · exact h
    · exfalso
      have hz : intSqrt n = 0 := le_antisymm h hs0
      have := intSqrt_lt_succ (le_of_lt hpos)
      rw [hz] at this
      omega
  split
  · exact ⟨by ring, by omega, one_pos, isCoprime_one_right⟩
  · exact ⟨by ring, hs1, one_pos, isCoprime_one_right⟩

/-- Every defined entry of the driver's trace satisfies the invariant. -/
theorem nthTriple_inv {n : Int} (hpos : 0 < n) (hns : ∀ s : Int, s * s ≠ n) :
    ∀ (i : Nat) (t : Int × Int × Int), nthTriple n i = some t → Inv n t
  | 0, t, h => by
    obtain rfl : initTriple n = t := Option.some.inj h
    exact initTriple_inv hpos
  | i + 1, t, h => by
    rcases hi : nthTriple n i with _ | ⟨a, b, k⟩
    · rw [nthTriple, hi] at h
      exact Option.noConfusion h
    · have hinv := nthTriple_inv hpos hns i (a, b, k) hi
      rw [nthTriple, hi] at h
      dsimp only at h
      by_cases hk1 : k = 1
      · rw [if_pos hk1] at h
        exact Option.noConfusion h
      · rw [if_neg hk1] at h
        exact step_inv hpos.le hns hinv h

/-- If the fuel-indexed loop returns a solution from an invariant state,
that solution satisfies the Pell equation (exit requires `k = 1`). -/
theorem loop_solution {n : Int} (hn : 0 ≤ n) (hns : ∀ s : Int, s * s ≠ n) :
    ∀ (fuel : Nat) (t : Int × Int × Int) (x y : Int), Inv n t →
      loop n fuel t = .solution x y → x * x - n * y * y = 1
  | 0, (_, _, _), _, _, _, h => Result.noConfusion h
  | fuel + 1, (a, b, k), x, y, hinv, h => by
    by_cases hk1 : k = 1
    · rw [loop, if_pos hk1] at h
      obtain ⟨rfl, rfl⟩ := Result.solution.inj h
      obtain ⟨hk, -, -, -⟩ := hinv
      rw [hk1] at hk
      exact hk
    · rw [loop, if_neg hk1] at h
      rcases hs : step n (a, b, k) with _ | t'
      · rw [hs] at h
        exact Result.noConfusion h
      · rw [hs] at h
        exact loop_solution hn hns fuel t' x y (step_inv hn hns hinv hs) h

/-- More fuel never changes a returned solution: the source loop has no
iteration cap, its only value-producing exit is `k = 1`. -/
theorem loop_solution_mono {n : Int} :
    ∀ (fuel fuel' : Nat) (t : Int × Int × Int) (x y : Int), fuel ≤ fuel' →
      loop n fuel t = .solution x y → loop n fuel' t = .solution x y
  | 0, _, (_, _, _), _, _, _, h => Result.noConfusion h
  | fuel + 1, fuel' + 1, (a, b, k), x, y, hle, h => by
    by_cases hk1 : k = 1
    · rw [loop, if_pos hk1] at h ⊢
      exact h
    · rw [loop, if_neg hk1] at h ⊢
      rcases hs : step n (a, b, k) with _ | t'
      · rw [hs] at h
        exact Result.noConfusion h
      · rw [hs] at h
        exact loop_solution_mono fuel fuel' t' x y (by omega) h
  | fuel + 1, 0, (a, b, k), x, y, hle, h => by omega

/-! ### The claims -/

/-- Claim C1: whenever the solver returns a pair `(x, y)`, it satisfies
`x² − N·y² = 1` exactly; the loop runs while `k ≠ 1` and returns `(a, b)`
only once `k = 1`. -/
theorem returned_pair_solves_pell (fuel : Nat) (n : Nat) (x y : Int)
    (h : chakravala fuel n = .solution x y) :
    x * x - (n : Int) * y * y = 1 := by
  unfold chakravala at h
  dsimp only at h
  split at h
  · exact Result.noConfusion h
  · rename_i hck
    have hns := not_square_of_check hck
    have hpos : 0 < (n : Int) := by
      rcases Nat.eq_zero_or_pos n with rfl | hp
      · exact absurd (by decide : intSqrt ((0 : Nat) : Int) * intSqrt ((0 : Nat) : Int) = ((0 : Nat) : Int)) hck
      · exact_mod_cast hp
    exact loop_solution hpos.le hns fuel _ x y (initTriple_inv hpos) h

/-- Witness for C1 at `N = 2`. -/
theorem returned_pair_solves_pell_witness :
    chakravala 10 2 = Result.solution 3 2 ∧ (3 : Int) * 3 - (2 : Nat) * 2 * 2 = 1 :=
  ⟨by decide, returned_pair_solves_pell 10 2 3 2 (by decide)⟩

/-- Claim C2: every triple `(a, b, k)` produced by the driver on a positive
non-square `N` — the initial triple and the triple after each composition
step — satisfies `a² − N·b² = k` exactly. -/
theorem driver_triples_satisfy_relation (n : Nat) (hpos : 0 < n)
    (hck : intSqrt (n : Int) * intSqrt (n : Int) ≠ (n : Int))
    (i : Nat) (a b k : Int) (h : nthTriple (n : Int) i = some (a, b, k)) :
    a * a - (n : Int) * b * b = k :=
  (nthTriple_inv (by exact_mod_cast hpos) (not_square_of_check hck) i (a, b, k) h).1

/-- Witness for C2 at `N = 13`, step 1. -/
theorem driver_triples_satisfy_relation_witness :
    nthTriple ((13 : Nat) : Int) 1 = some (7, 2, -3) ∧ (7 : Int) * 7 - (13 : Nat) * 2 * 2 = -3 :=
  ⟨by decide, driver_triples_satisfy_relation 13 (by decide) (by decide) 1 7 2 (-3) (by decide)⟩

/-- Claim C9: the components `a` and `b` of every triple the driver
produces stay non-negative (dividing by `|k|` rather than `k`). -/
theorem driver_triples_nonneg (n : Nat) (hpos : 0 < n)
    (hck : intSqrt (n : Int) * intSqrt (n : Int) ≠ (n : Int))
    (i : Nat) (a b k : Int) (h : nthTriple (n : Int) i = some (a, b, k)) :
    0 ≤ a ∧ 0 ≤ b := by
  obtain ⟨-, ha, hb, -⟩ :=
    nthTriple_inv (n := (n : Int)) (by exact_mod_cast hpos) (not_square_of_check hck) i (a, b, k) h
  exact ⟨ha.le, hb.le⟩

/-- Witness for C9 at `N = 61`, step 2. -/
theorem driver_triples_nonneg_witness :
    nthTriple ((61 : Nat) : Int) 2 = some (164, 21, -5) ∧ (0 : Int) ≤ 164 ∧ (0 : Int) ≤ 21 :=
  ⟨by decide, driver_triples_nonneg 61 (by decide) (by decide) 2 164 21 (-5) (by decide)⟩

/-- Claim C5: for a positive non-square `N` with `s = ⌊√N⌋`, the initial
triple is `(a₀, 1, a₀² − N)` with `a₀ = s+1` if `(s+1)² − N < N − s²` and
`a₀ = s` otherwise; this `a₀` minimizes `|a₀² − N|` over `{s, s+1}`. -/
theorem initial_triple_formula (n : Nat) (hpos : 0 < n)
    (hck : intSqrt (n : Int) * intSqrt (n : Int) ≠ (n : Int)) :
    ∃ a0 : Int,
      a0 = (if (intSqrt (n : Int) + 1) * (intSqrt (n : Int) + 1) - (n : Int) <
              (n : Int) - intSqrt (n : Int) * intSqrt (n : Int)
            then intSqrt (n : Int) + 1 else intSqrt (n : Int)) ∧
      initTriple (n : Int) = (a0, 1, a0 * a0 - (n : Int)) ∧
      |a0 * a0 - (n : Int)| ≤ |intSqrt (n : Int) * intSqrt (n : Int) - (n : Int)| ∧
      |a0 * a0 - (n : Int)| ≤ |(intSqrt (n : Int) + 1) * (intSqrt (n : Int) + 1) - (n : Int)| := by
  have hn0 : (0 : Int) ≤ (n : Int) := Int.natCast_nonneg n
  have h1 : intSqrt (n : Int) * intSqrt (n : Int) ≤ (n : Int) := intSqrt_le hn0
  have h2 : (n : Int) < (intSqrt (n : Int) + 1) * (intSqrt (n : Int) + 1) := intSqrt_lt_succ hn0
  set s := intSqrt (n : Int) with hs
  have e1 : |(n : Int) - s * s| = (n : Int) - s * s := abs_of_nonneg (by linarith)
  have e2 : |(s + 1) * (s + 1) - (n : Int)| = (s + 1) * (s + 1) - (n : Int) :=
    abs_of_nonneg (by linarith)
  refine ⟨if (s + 1) * (s + 1) - (n : Int) < (n : Int) - s * s then s + 1 else s,
    rfl, ?_, ?_, ?_⟩
  · unfold initTriple
    dsimp only
    rw [← hs, e1, e2]
    by_cases hc : (s + 1) * (s + 1) - (n : Int) < (n : Int) - s * s
    · rw [if_pos hc]
      have e3 : (s + 1) * (s + 1) - (n : Int) * 1 * 1 = (s + 1) * (s + 1) - (n : Int) := by ring
      rw [e3]
    · rw [if_neg hc]
      have e3 : s * s - (n : Int) * 1 * 1 = s * s - (n : Int) := by ring
      rw [e3]
  · by_cases hc : (s + 1) * (s + 1) - (n : Int) < (n : Int) - s * s
    · rw [if_pos hc]
      rw [abs_sub_comm (s * s) (n : Int), e1]
      have e2' : |(s + 1) * (s + 1) - (n : Int)| = (s + 1) * (s + 1) - (n : Int) := e2
      rw [e2']
      linarith
    · rw [if_neg hc]
  · by_cases hc : (s + 1) * (s + 1) - (n : Int) < (n : Int) - s * s
    · rw [if_pos hc]
    · rw [if_neg hc]
      rw [abs_sub_comm (s * s) (n : Int), e1, e2]
      linarith

/-- Witness for C5 at `N = 7` (there `s = 2`, `d₁ = 3`, `d₂ = 2`, so `a₀ = 3`). -/
theorem initial_triple_formula_witness :
    initTriple ((7 : Nat) : Int) = (3, 1, 2) := by
  obtain ⟨a0, ha0, hinit, -, -⟩ := initial_triple_formula 7 (by decide) (by decide)
  have : a0 = 3 := by rw [ha0]; decide
  rw [hinit, this]
  decide

/-- Claim C6: the solver returns the fundamental solutions of the spec's
table for `N = 2, 5, 13, 61`. -/
theorem table_solutions :
    chakravala 40 2 = Result.solution 3 2
    ∧ chakravala 40 5 = Result.solution 9 4
    ∧ chakravala 40 13 = Result.solution 649 180
    ∧ chakravala 40 61 = Result.solution 1766319049 226153980 := by
  refine ⟨by decide, by decide, by decide, by decide⟩

/-- Claim C7: every perfect-square input (including `N = 1`) is rejected
with the perfect-square outcome, before any triple is constructed. -/
theorem perfect_square_rejected (fuel : Nat) (n : Nat) (h : ∃ s : Nat, s * s = n) :
    chakravala fuel n = .perfectSquare := by
  obtain ⟨s, rfl⟩ := h
  have hx : ((s : Int)) * (s : Int) = ((s * s : Nat) : Int) := by push_cast; ring
  have hsq : intSqrt ((s * s : Nat) : Int) = (s : Int) :=
    intSqrt_square (Int.natCast_nonneg s) hx
  unfold chakravala
  dsimp only
  rw [hsq, if_pos hx]

/-- Witness for C7 at `N = 9` and `N = 1`. -/
theorem perfect_square_rejected_witness :
    chakravala 3 9 = Result.perfectSquare ∧ chakravala 3 1 = Result.perfectSquare :=
  ⟨perfect_square_rejected 3 9 ⟨3, rfl⟩, perfect_square_rejected 3 1 ⟨1, rfl⟩⟩

/-- Claim C8, counterexample: `N = 0` is the only representable
non-positive input (the Rust signature takes `u32`), and the solver rejects
it through the perfect-square branch — the same observable outcome as any
perfect square — rather than any distinct `InvalidInput` error (the code
defines none). -/
theorem zero_rejected_as_perfect_square_cex : chakravala 5 0 = Result.perfectSquare := by
  decide

/-- Claim C8, amended: negative `N` is unrepresentable in the input type
`u32`, and `N = 0` is rejected via the perfect-square check (`0 = 0²`) with
the `PerfectSquare` outcome; no distinct `InvalidInput` error exists. -/
theorem zero_rejected_as_perfect_square (fuel : Nat) :
    chakravala fuel 0 = Result.perfectSquare := rfl

/-- Claim C10: the driver imposes no iteration cap — a returned solution is
stable under any larger fuel, so the only loop exits are `k = 1` and the
oracle's abort, and no `NoConvergence`-style outcome exists; and when
`find_optimal_m` finds no valid `m`, the program aborts (the `expect`
panic) instead of surfacing an error value. -/
theorem no_cap_and_abort_on_oracle_failure :
    (∀ (n : Int) (fuel fuel' : Nat) (t : Int × Int × Int) (x y : Int),
      fuel ≤ fuel' → loop n fuel t = .solution x y → loop n fuel' t = .solution x y)
    ∧ (∀ (n a b k : Int) (fuel : Nat), k ≠ 1 → find_optimal_m n a b k = none →
      loop n (fuel + 1) (a, b, k) = .aborted) := by
  constructor
  · intro n fuel fuel' t x y hle h
    exact loop_solution_mono fuel fuel' t x y hle h
  · intro n a b k fuel hk1 hfm
    rw [loop, if_neg hk1]
    have hstep : step n (a, b, k) = none := by simp [step, hfm]
    rw [hstep]

/-- Witness for C10: more fuel preserves the `N = 2` solution, and the
oracle's failure on the (unreachable) state `(1, 0, 2)` aborts the run. -/
theorem no_cap_and_abort_on_oracle_failure_witness :
    loop 2 5 (1, 1, -1) = Result.solution 3 2 ∧ loop 2 1 (1, 0, 2) = Result.aborted :=
  ⟨no_cap_and_abort_on_oracle_failure.1 2 2 5 (1, 1, -1) 3 2 (by omega) (by decide),
   no_cap_and_abort_on_oracle_failure.2 2 1 0 2 0 (by decide) (by decide)⟩

/-- Claim C3 fails on the code: at `N = 606` the driver passes the triple
`(74, 3, 22)` to the oracle (trace index 1), which returns `m = 34` with
`|34² − 606| = 550`, although `m = 12` also satisfies
`(74 + 3·12) mod |22| = 0` with the strictly smaller `|12² − 606| = 462`
(missed by the `offset > min(|k|, 10)` early exit).  Moreover at `N = 29`
the initial triple `(5, 1, −4)` is passed to the oracle, which returns
`m = 7` although `m = 3` is valid with the same `|m² − 29| = 20` — the tie
is resolved to the larger `m`, against the spec's smaller-`m` rule. -/
theorem oracle_not_optimal_eval :
    nthTriple 606 1 = some (74, 3, 22)
    ∧ find_optimal_m 606 74 3 22 = some 34
    ∧ ((74 : Int) + 3 * 12).tmod |(22 : Int)| = 0
    ∧ |(12 : Int) * 12 - 606| < |(34 : Int) * 34 - 606|
    ∧ nthTriple 29 0 = some (5, 1, -4)
    ∧ find_optimal_m 29 5 1 (-4) = some 7
    ∧ ((5 : Int) + 1 * 3).tmod |(-4 : Int)| = 0
    ∧ |(3 : Int) * 3 - 29| = |(7 : Int) * 7 - 29|
    ∧ (3 : Int) < 7 := by
  refine ⟨by decide, by decide, by decide, by decide, by decide, by decide,
    by decide, by decide, by decide⟩

end Chakravala
